import Mathlib

/-!
Shallow embedding of `scripts/extract_blue_contours.py` (HistoMapGeoref):
the raster→vector blue-linework extraction pipeline.  Numeric code is
modelled over `ℚ`; calls into external libraries (skimage gaussian blur,
rgb2hsv, morphology operators, shapely simplify) appear as universally
quantified function parameters, while the script's own logic — the HSV
threshold predicate, vertex-thinning slice, affine coordinate mapping,
degenerate-geometry guards, parameter clamping and feature serialization —
is translated directly from the source.
-/

namespace ExtractBlueContours

/-- A sub-pixel point: `(row, col)` in mask space, or `(lon, lat)` in
geographic space, depending on the pipeline stage. -/
abbrev Pt : Type := ℚ × ℚ

/-- An RGB (or HSV) pixel with three components. -/
abbrev Pix : Type := ℚ × ℚ × ℚ

/-- Per-pixel predicate of `threshold_blue_hsv` (source lines 81–87): the
non-wraparound branch (`h_min ≤ h_max`) requires `h_min ≤ H ≤ h_max`, the
wraparound branch (`h_min > h_max`) requires `H ≥ h_min` or `H ≤ h_max`;
both conjoin the saturation and value floors. -/
def threshold_pixel (h s v h_min h_max s_min v_min : ℚ) : Bool :=
  if h_min ≤ h_max then
    decide (h_min ≤ h) && decide (h ≤ h_max) && decide (s_min ≤ s) && decide (v_min ≤ v)
  else
    (decide (h_min ≤ h) || decide (h ≤ h_max)) && decide (s_min ≤ s) && decide (v_min ≤ v)

/-- Spec-side hue-in-range relation, written from the specification text:
when `h_min ≤ h_max` require `H ∈ [h_min, h_max]`; when `h_min > h_max`
require `H ∈ [h_min, 1] ∪ [0, h_max]`. -/
def hue_in_range_spec (h h_min h_max : ℚ) : Prop :=
  if h_min ≤ h_max then h_min ≤ h ∧ h ≤ h_max
  else (h_min ≤ h ∧ h ≤ 1) ∨ (0 ≤ h ∧ h ≤ h_max)

/-- Conditional Gaussian blur of `threshold_blue_hsv` (lines 74–76).
`gaussianFn` stands for the external skimage gaussian filter; the guard is
Python truthiness `if blur_sigma and blur_sigma > 0`. -/
def blur_stage {I : Type} (gaussianFn : ℚ → I → I) (blur_sigma : ℚ) (img : I) : I :=
  if blur_sigma ≠ 0 ∧ 0 < blur_sigma then gaussianFn blur_sigma img else img

/-- Componentwise clip of one sample to `[0, 1]` (the `np.clip(rgb, 0, 1)`
of line 78). -/
def clip01 (q : ℚ) : ℚ := max 0 (min 1 q)

/-- Clip of one pixel to `[0, 1]` per channel. -/
def clipPix (p : Pix) : Pix := (clip01 p.1, clip01 p.2.1, clip01 p.2.2)

/-- `threshold_blue_hsv` (lines 69–87) over a flattened image: optional
blur, clip to `[0,1]`, pixelwise conversion to HSV (`rgb2hsvPix` stands for
the external skimage rgb2hsv), then the per-pixel threshold predicate. -/
def threshold_blue_hsv (gaussianFn : ℚ → List Pix → List Pix) (rgb2hsvPix : Pix → Pix)
    (rgb : List Pix) (h_min h_max s_min v_min blur_sigma : ℚ) : List Bool :=
  let blurred := blur_stage gaussianFn blur_sigma rgb
  let hsv := blurred.map (fun p => rgb2hsvPix (clipPix p))
  hsv.map (fun q => threshold_pixel q.1 q.2.1 q.2.2 h_min h_max s_min v_min)

/-- Maximum sample of a band (numpy max), meaningful on nonempty bands;
defined as `0` on the empty band, which numpy rejects outright. -/
def bandMax : List ℚ → ℚ
  | [] => 0
  | x :: xs => xs.foldl max x

/-- Inner band normalizer of `normalize_rgb` (lines 57–65): a band whose
maximum is `0` passes through; a maximum above `1` selects division by
`255` (when the maximum is `≤ 255`) or by the observed maximum; otherwise
the band is returned unchanged. -/
def norm_band (x : List ℚ) : List ℚ :=
  if bandMax x = 0 then x
  else if 1 < bandMax x then
    x.map (fun v => v / (if bandMax x ≤ 255 then 255 else bandMax x))
  else x

/-- `normalize_rgb` (lines 55–66): the inner normalizer applied to each of
the three bands. -/
def normalize_rgb (r g b : List ℚ) : List ℚ × List ℚ × List ℚ :=
  (norm_band r, norm_band g, norm_band b)

/-- The raster's 6-parameter affine transform `(a, b, c, d, e, f)` mapping
pixel coordinates to geographic coordinates:
`lon = a·x + b·y + c`, `lat = d·x + e·y + f`. -/
structure Affine where
  a : ℚ
  b : ℚ
  c : ℚ
  d : ℚ
  e : ℚ
  f : ℚ

/-- Model of `rasterio.transform.xy(transform, row, col, offset=center)`
(line 108), from rasterio's documented semantics: the forward affine
transform applied at the pixel center `(col + 1/2, row + 1/2)`. -/
def xy_center (t : Affine) (row col : ℚ) : Pt :=
  (t.a * (col + 1/2) + t.b * (row + 1/2) + t.c,
   t.d * (col + 1/2) + t.e * (row + 1/2) + t.f)

/-- Pixel→geographic mapping of one contour (lines 106–109), vertex by
vertex, order preserved. -/
def map_contour (t : Affine) (arr : List Pt) : List Pt :=
  arr.map (fun rc => xy_center t rc.1 rc.2)

/-- Vertex thinning, the extended slice `arr[::max(1, int(step))]` of line
105 for stride `k ≥ 1`: keeps the vertices at indices `0, k, 2k, …`. -/
def everyNth {α : Type} (k : ℕ) : List α → List α
  | [] => []
  | x :: xs => x :: everyNth k (xs.drop (k - 1))
termination_by l => l.length
decreasing_by simp only [List.length_drop, List.length_cons]; omega

/-- Shapely LineString construction (line 109): building from a single
coordinate raises, zero or at least two coordinates succeed. -/
def mkLineString (coords : List Pt) : Except String (List Pt) :=
  if coords.length = 1 then
    Except.error "point array must contain 0 or more than 1 elements"
  else Except.ok coords

/-- Conditional simplification (lines 110–111), guarded by Python
truthiness `if simplify_tol and simplify_tol > 0`; `sfn` stands for the
external shapely Douglas–Peucker simplify. -/
def simplify_stage (sfn : ℚ → List Pt → List Pt) (simplify_tol : ℚ) (line : List Pt) :
    List Pt :=
  if simplify_tol ≠ 0 ∧ 0 < simplify_tol then sfn simplify_tol line else line

/-- Whether a coordinate list holds two distinct points: GEOS validity for
a line geometry (lines of coincident points only are invalid). -/
def has_two_distinct : List Pt → Bool
  | [] => false
  | x :: xs => xs.any (fun y => decide (y ≠ x))

/-- Final per-line keep test of line 112: valid, not empty, and at least
two coordinates. -/
def line_filter (line : List Pt) : Bool :=
  decide (2 ≤ line.length) && has_two_distinct line

/-- `to_lines` (lines 95–114): drop contours with fewer than 2 vertices,
thin by the (re-clamped, line 105) stride, map through the affine
transform, build the line geometry (which can raise), optionally simplify,
and keep lines passing the final test.  The contour list is the last
parameter so the recursion is structural. -/
def to_lines (sfn : ℚ → List Pt → List Pt) (t : Affine) (step : ℤ) (simplify_tol : ℚ) :
    List (List Pt) → Except String (List (List Pt))
  | [] => Except.ok []
  | arr :: rest =>
    if arr.length < 2 then to_lines sfn t step simplify_tol rest
    else
      match mkLineString (map_contour t (everyNth (max 1 step).toNat arr)) with
      | Except.error e => Except.error e
      | Except.ok line =>
        let line2 := simplify_stage sfn simplify_tol line
        match to_lines sfn t step simplify_tol rest with
        | Except.error e => Except.error e
        | Except.ok rest2 =>
          if line_filter line2 then Except.ok (line2 :: rest2) else Except.ok rest2

/-- Small-object-removal sub-step (lines 193–194), guarded by Python
truthiness `if min_size and min_size > 0`; `rem` stands for the external
skimage remove_small_objects. -/
def morph_remove {M : Type} (rem : ℤ → M → M) (min_size : ℤ) (m : M) : M :=
  if min_size ≠ 0 ∧ 0 < min_size then rem min_size m else m

/-- Binary-opening sub-step (lines 195–196), same guard shape on the
opening radius; `opn` stands for the external skimage binary_opening with
a disk element. -/
def morph_opening {M : Type} (opn : ℤ → M → M) (r_open : ℤ) (m : M) : M :=
  if r_open ≠ 0 ∧ 0 < r_open then opn r_open m else m

/-- Binary-closing sub-step (lines 197–198), same guard shape on the
closing radius; `cls` stands for the external skimage binary_closing with
a disk element. -/
def morph_closing {M : Type} (cls : ℤ → M → M) (r_close : ℤ) (m : M) : M :=
  if r_close ≠ 0 ∧ 0 < r_close then cls r_close m else m

/-- Morphological cleanup of `main` (lines 192–198): small-object removal,
then opening, then closing, in that order. -/
def morph_cleanup {M : Type} (rem opn cls : ℤ → M → M) (min_size r_open r_close : ℤ)
    (m : M) : M :=
  morph_closing cls r_close (morph_opening opn r_open (morph_remove rem min_size m))

/-- A GeoJSON feature: one line geometry, no attached properties. -/
structure Feature where
  geometry : List Pt

/-- A GeoJSON feature collection: an ordered feature list. -/
structure FeatureCollection where
  features : List Feature

/-- `save_geojson` (lines 117–125): one feature per polyline, in order. -/
def save_geojson (lines : List (List Pt)) : FeatureCollection :=
  ⟨lines.map (fun l => ⟨l⟩)⟩

/-- Result of the tail of `main`: the emitted collection plus whether the
parameter-tuning guidance messages were printed. -/
structure RunOutput where
  fc : FeatureCollection
  guidance : Bool

/-- Tail of `main` (lines 205–225): if tracing yielded no contours, print
tuning guidance and emit an empty collection; otherwise convert to lines
with the clamped stride and tolerance (`max(1, step)`, `max(0.0,
simplify)`, line 216) and emit the result. -/
def vectorize_tail (sfn : ℚ → List Pt → List Pt) (t : Affine) (step : ℤ)
    (simplify_tol : ℚ) (contours : List (List Pt)) : Except String RunOutput :=
  if contours.isEmpty then Except.ok ⟨save_geojson [], true⟩
  else
    match to_lines sfn t (max 1 step) (max 0 simplify_tol) contours with
    | Except.error e => Except.error e
    | Except.ok lines => Except.ok ⟨save_geojson lines, false⟩

/-! Helper lemmas about the vertex thinner. -/

theorem everyNth_nil {α : Type} (k : ℕ) : everyNth k ([] : List α) = [] := by
  simp [everyNth]

theorem everyNth_cons {α : Type} (k : ℕ) (x : α) (xs : List α) :
    everyNth k (x :: xs) = x :: everyNth k (xs.drop (k - 1)) := by
  rw [everyNth]

theorem everyNth_length_aux {α : Type} (k : ℕ) (hk : 1 ≤ k) :
    ∀ (n : ℕ) (l : List α), l.length ≤ n →
      (everyNth k l).length = (l.length + k - 1) / k := by
  intro n
  induction n with
  | zero =>
    intro l hl
    have hnil : l = [] := List.length_eq_zero.mp (Nat.le_zero.mp hl)
    subst hnil
    simp [everyNth_nil, Nat.div_eq_of_lt (show k - 1 < k by omega)]
  | succ n ih =>
    intro l hl
    cases l with
    | nil => simp [everyNth_nil, Nat.div_eq_of_lt (show k - 1 < k by omega)]
    | cons x xs =>
      rw [everyNth_cons]
      simp only [List.length_cons] at hl ⊢
      have hdrop : (xs.drop (k - 1)).length ≤ n := by
        simp only [List.length_drop]; omega
      rw [ih _ hdrop, List.length_drop]
      rcases le_or_lt (k - 1) xs.length with hle | hlt
      · have h1 : xs.length - (k - 1) + k - 1 = xs.length := by omega
        have h2 : xs.length + 1 + k - 1 = xs.length + k := by omega
        rw [h1, h2, Nat.add_div_right _ (show 0 < k by omega)]
      · have h1 : xs.length - (k - 1) + k - 1 = k - 1 := by omega
        have h2 : xs.length + 1 + k - 1 = xs.length + k := by omega
        rw [h1, h2, Nat.add_div_right _ (show 0 < k by omega),
          Nat.div_eq_of_lt (show k - 1 < k by omega),
          Nat.div_eq_of_lt (show xs.length < k by omega)]

theorem everyNth_getElem_aux {α : Type} (k : ℕ) (hk : 1 ≤ k) :
    ∀ (n : ℕ) (l : List α), l.length ≤ n →
      ∀ i : ℕ, (everyNth k l)[i]? = l[i * k]? := by
  intro n
  induction n with
  | zero =>
    intro l hl i
    have hnil : l = [] := List.length_eq_zero.mp (Nat.le_zero.mp hl)
    subst hnil
    simp [everyNth_nil]
  | succ n ih =>
    intro l hl i
    cases l with
    | nil => simp [everyNth_nil]
    | cons x xs =>
      rw [everyNth_cons]
      cases i with
      | zero => simp
      | succ i =>
        have hdrop : (xs.drop (k - 1)).length ≤ n := by
          simp only [List.length_drop]
          simp only [List.length_cons] at hl
          omega
        rw [List.getElem?_cons_succ, ih _ hdrop i, List.getElem?_drop]
        have hidx : (i + 1) * k = (k - 1 + i * k) + 1 := by
          have hmul : (i + 1) * k = i * k + k := by ring
          omega
        rw [hidx, List.getElem?_cons_succ]

theorem everyNth_getLast_of_dvd {α : Type} (k : ℕ) (hk : 1 ≤ k) (l : List α)
    (hd : k ∣ (l.length - 1)) : (everyNth k l).getLast? = l.getLast? := by
  cases l with
  | nil => simp [everyNth_nil]
  | cons x xs =>
    obtain ⟨q, hq⟩ := hd
    simp only [List.length_cons, Nat.add_sub_cancel] at hq
    have hlen : (everyNth k (x :: xs)).length = q + 1 := by
      rw [everyNth_length_aux k hk _ _ le_rfl]
      simp only [List.length_cons]
      rw [hq]
      have h2 : k * q + 1 + k - 1 = k * q + k := by omega
      rw [h2, Nat.add_div_right _ (show 0 < k by omega),
        Nat.mul_div_cancel_left _ (show 0 < k by omega)]
    rw [List.getLast?_eq_getElem?, List.getLast?_eq_getElem?, hlen]
    simp only [Nat.add_sub_cancel, List.length_cons]
    rw [everyNth_getElem_aux k hk _ _ le_rfl q, hq, Nat.mul_comm]

/-! Helper lemmas about the band maximum. -/

theorem le_foldl_max : ∀ (l : List ℚ) (a : ℚ), a ≤ l.foldl max a := by
  intro l
  induction l with
  | nil => intro a; simp
  | cons x xs ih =>
    intro a
    rw [List.foldl_cons]
    exact le_trans (le_max_left a x) (ih (max a x))

theorem mem_le_foldl_max : ∀ (l : List ℚ) (a v : ℚ), v ∈ l → v ≤ l.foldl max a := by
  intro l
  induction l with
  | nil => intro a v hv; cases hv
  | cons x xs ih =>
    intro a v hv
    rw [List.foldl_cons]
    rcases List.mem_cons.mp hv with h | h
    · subst h
      exact le_trans (le_max_right a v) (le_foldl_max xs (max a v))
    · exact ih (max a x) v h

theorem mem_le_bandMax (x : List ℚ) (v : ℚ) (hv : v ∈ x) : v ≤ bandMax x := by
  cases x with
  | nil => cases hv
  | cons y ys =>
    rw [bandMax]
    rcases List.mem_cons.mp hv with h | h
    · subst h; exact le_foldl_max ys v
    · exact mem_le_foldl_max ys y v h

theorem foldl_max_le (c : ℚ) :
    ∀ (l : List ℚ) (a : ℚ), a ≤ c → (∀ v ∈ l, v ≤ c) → l.foldl max a ≤ c := by
  intro l
  induction l with
  | nil => intro a ha _; simpa using ha
  | cons x xs ih =>
    intro a ha hv
    rw [List.foldl_cons]
    exact ih (max a x) (max_le ha (hv x (List.mem_cons_self x xs)))
      (fun v hv' => hv v (List.mem_cons_of_mem x hv'))

theorem bandMax_le (x : List ℚ) (c : ℚ) (hc : 0 ≤ c) (h : ∀ v ∈ x, v ≤ c) :
    bandMax x ≤ c := by
  cases x with
  | nil => simpa [bandMax] using hc
  | cons y ys =>
    rw [bandMax]
    exact foldl_max_le c ys y (h y (List.mem_cons_self y ys))
      (fun v hv => h v (List.mem_cons_of_mem y hv))

/-! Claim theorems. -/

/-- C1: the thresholder includes a pixel in the output mask iff
`S ≥ s_min`, `V ≥ v_min` and the hue lies in the (possibly wrapped) range —
`H ∈ [h_min, h_max]` when `h_min ≤ h_max`, `H ∈ [h_min, 1] ∪ [0, h_max]`
when `h_min > h_max` — for any hue on the circular axis `[0, 1)`. -/
theorem threshold_pixel_matches_spec (h s v h_min h_max s_min v_min : ℚ)
    (h0 : 0 ≤ h) (h1 : h < 1) :
    threshold_pixel h s v h_min h_max s_min v_min = true ↔
      s_min ≤ s ∧ v_min ≤ v ∧ hue_in_range_spec h h_min h_max := by
  have h1' : h ≤ 1 := le_of_lt h1
  unfold threshold_pixel hue_in_range_spec
  by_cases hc : h_min ≤ h_max
  · simp only [if_pos hc, Bool.and_eq_true, decide_eq_true_eq]
    tauto
  · simp only [if_neg hc, Bool.and_eq_true, Bool.or_eq_true, decide_eq_true_eq]
    constructor
    · rintro ⟨⟨hh | hh, hs⟩, hv⟩
      · exact ⟨hs, hv, Or.inl ⟨hh, h1'⟩⟩
      · exact ⟨hs, hv, Or.inr ⟨h0, hh⟩⟩
    · rintro ⟨hs, hv, hr | hr⟩
      · exact ⟨⟨Or.inl hr.1, hs⟩, hv⟩
      · exact ⟨⟨Or.inr hr.2, hs⟩, hv⟩

/-- C1 witness: for `h_min = 0.9 > h_max = 0.1` and `S = V = 1` above the
default floors, a pixel with `H = 0.95` or `H = 0.05` is included while
`H = 0.5` is excluded. -/
theorem threshold_pixel_matches_spec_witness :
    (threshold_pixel (19/20) 1 1 (9/10) (1/10) (1/4) (3/20) = true ↔
      (1/4 : ℚ) ≤ 1 ∧ (3/20 : ℚ) ≤ 1 ∧ hue_in_range_spec (19/20) (9/10) (1/10)) ∧
    threshold_pixel (19/20) 1 1 (9/10) (1/10) (1/4) (3/20) = true ∧
    threshold_pixel (1/20) 1 1 (9/10) (1/10) (1/4) (3/20) = true ∧
    threshold_pixel (1/2) 1 1 (9/10) (1/10) (1/4) (3/20) = false := by
  refine ⟨threshold_pixel_matches_spec (19/20) 1 1 (9/10) (1/10) (1/4) (3/20)
    (by norm_num) (by norm_num), ?_, ?_, ?_⟩
  all_goals
    rw [threshold_pixel, if_neg (by norm_num)]
    norm_num

/-- C2 counterexample: on a 4-vertex contour with stride 2 the thinner
keeps indices 0 and 2 only, so the original last vertex `(3, 0)` is not
retained, contradicting the claim that the first and last vertices are
always kept. -/
theorem everyNth_last_not_retained :
    everyNth 2 [((0:ℚ), (0:ℚ)), (1, 0), (2, 0), (3, 0)] = [(0, 0), (2, 0)] ∧
    (everyNth 2 [((0:ℚ), (0:ℚ)), (1, 0), (2, 0), (3, 0)]).getLast? ≠
      ([((0:ℚ), (0:ℚ)), (1, 0), (2, 0), (3, 0)] : List Pt).getLast? := by
  have hval : everyNth 2 [((0:ℚ), (0:ℚ)), (1, 0), (2, 0), (3, 0)] = [(0, 0), (2, 0)] := by
    simp [everyNth_cons, everyNth_nil]
  refine ⟨hval, ?_⟩
  rw [hval]
  simp only [List.getLast?, ne_eq, Option.some.injEq, Prod.mk.injEq]
  norm_num

/-- C2 (amended): for stride `k ≥ 1` the thinner keeps exactly the
vertices at indices `0, k, 2k, …`: stride 1 is the identity, the original
first vertex is always kept, the thinned count is exactly
`⌈N/k⌉ = (N + k - 1) / k` (within the claimed `±1`), and the original last
vertex is kept when `k` divides `N - 1` — but, per the counterexample, not
in general. -/
theorem everyNth_amended (k : ℕ) (hk : 1 ≤ k) (l : List Pt) :
    everyNth 1 l = l ∧
    (∀ i : ℕ, (everyNth k l)[i]? = l[i * k]?) ∧
    (everyNth k l).head? = l.head? ∧
    (everyNth k l).length = (l.length + k - 1) / k ∧
    (k ∣ (l.length - 1) → (everyNth k l).getLast? = l.getLast?) := by
  refine ⟨?_, ?_, ?_, ?_, ?_⟩
  · induction l with
    | nil => simp [everyNth_nil]
    | cons x xs ih => rw [everyNth_cons]; simpa using ih
  · intro i
    exact everyNth_getElem_aux k hk _ l le_rfl i
  · rw [List.head?_eq_getElem?, List.head?_eq_getElem?]
    simpa using everyNth_getElem_aux k hk _ l le_rfl 0
  · exact everyNth_length_aux k hk _ l le_rfl
  · exact everyNth_getLast_of_dvd k hk l

/-- C2 witness: the amended statement at stride 2 on a 3-vertex contour:
count `⌈3/2⌉ = 2` and, since `2 ∣ 3 - 1`, the last vertex is kept. -/
theorem everyNth_amended_witness :
    (everyNth 2 [((0:ℚ), (0:ℚ)), (1, 0), (2, 0)]).length = 2 ∧
    (everyNth 2 [((0:ℚ), (0:ℚ)), (1, 0), (2, 0)]).getLast? =
      ([((0:ℚ), (0:ℚ)), (1, 0), (2, 0)] : List Pt).getLast? := by
  have h := everyNth_amended 2 (by norm_num) [((0:ℚ), (0:ℚ)), (1, 0), (2, 0)]
  refine ⟨?_, h.2.2.2.2 (by simp)⟩
  rw [h.2.2.2.1]
  norm_num

/-- C3: the coordinate mapper applies exactly the forward affine transform
with the pixel-center `+1/2` convention to each `(row, col)` vertex, and
preserves vertex count and order. -/
theorem map_contour_affine (t : Affine) (arr : List Pt) (i : ℕ) (row col : ℚ)
    (hi : arr[i]? = some (row, col)) :
    (map_contour t arr).length = arr.length ∧
    (map_contour t arr)[i]? =
      some (t.a * (col + 1/2) + t.b * (row + 1/2) + t.c,
            t.d * (col + 1/2) + t.e * (row + 1/2) + t.f) := by
  constructor
  · simp [map_contour]
  · simp only [map_contour, List.getElem?_map, hi, Option.map_some', xy_center]

/-- C3 witness: the transform `(2, 0, 10, 0, 3, 20)` at pixel
`(row, col) = (1, 4)` yields `(2·4.5 + 10, 3·1.5 + 20) = (19, 49/2)`. -/
theorem map_contour_affine_witness :
    (map_contour ⟨2, 0, 10, 0, 3, 20⟩ [((1:ℚ), (4:ℚ))]).length = 1 ∧
    (map_contour ⟨2, 0, 10, 0, 3, 20⟩ [((1:ℚ), (4:ℚ))])[0]? =
      some ((19 : ℚ), (49/2 : ℚ)) := by
  have h := map_contour_affine ⟨2, 0, 10, 0, 3, 20⟩ [((1:ℚ), (4:ℚ))] 0 1 4 (by simp)
  refine ⟨h.1, ?_⟩
  rw [h.2]
  simp only [Option.some.injEq, Prod.mk.injEq]
  norm_num

/-- C4 counterexample: a traced contour with exactly 2 vertices, thinned at
stride 2, leaves a single coordinate; line-geometry construction then
raises instead of the item being silently dropped, so the conversion
fails rather than completing without error. -/
theorem to_lines_thinned_error_counterexample :
    (to_lines (fun _ l => l) ⟨1, 0, 0, 0, 1, 0⟩ 2 0
      [[((1:ℚ), (2:ℚ)), (3, 4)]]).isOk = false := by
  have hmax : (max (1:ℤ) 2).toNat = 2 := by decide
  have hthin : everyNth 2 [((1:ℚ), (2:ℚ)), (3, 4)] = [(1, 2)] := by
    simp [everyNth_cons, everyNth_nil]
  simp [to_lines, hmax, hthin, map_contour, mkLineString, Except.isOk, Except.toBool]

/-- C4 (amended): a contour with fewer than 2 vertices is silently dropped
with the remaining items unaffected, and a polyline that fails the
post-simplification keep test (fewer than 2 coordinates, or no two
distinct ones) is likewise silently dropped; but a contour whose thinning
leaves a single vertex makes the conversion raise an error rather than
drop the item. -/
theorem to_lines_degenerate_amended (sfn : ℚ → List Pt → List Pt) (t : Affine)
    (step : ℤ) (tol : ℚ) (arr : List Pt) (rest : List (List Pt)) :
    (arr.length < 2 →
      to_lines sfn t step tol (arr :: rest) = to_lines sfn t step tol rest) ∧
    (2 ≤ arr.length → (everyNth (max 1 step).toNat arr).length = 1 →
      (to_lines sfn t step tol (arr :: rest)).isOk = false) ∧
    (2 ≤ arr.length → (everyNth (max 1 step).toNat arr).length ≠ 1 →
      line_filter (simplify_stage sfn tol
        (map_contour t (everyNth (max 1 step).toNat arr))) = false →
      to_lines sfn t step tol (arr :: rest) = to_lines sfn t step tol rest) := by
  refine ⟨?_, ?_, ?_⟩
  · intro hlt
    simp only [to_lines, if_pos hlt]
  · intro hge hthin
    have hm : (map_contour t (everyNth (max 1 step).toNat arr)).length = 1 := by
      simp [map_contour, hthin]
    simp only [to_lines, if_neg (by omega : ¬ arr.length < 2), mkLineString, if_pos hm,
      Except.isOk, Except.toBool]
  · intro hge hthin hfilt
    have hm : (map_contour t (everyNth (max 1 step).toNat arr)).length ≠ 1 := by
      simpa [map_contour] using hthin
    simp only [to_lines, if_neg (by omega : ¬ arr.length < 2), mkLineString, if_neg hm]
    cases hrest : to_lines sfn t step tol rest with
    | error e => rfl
    | ok rest2 => simp [hfilt]

/-- C4 witness: a 1-vertex contour is dropped silently, while a 2-vertex
contour thinned at stride 3 makes the conversion fail. -/
theorem to_lines_degenerate_amended_witness :
    to_lines (fun _ l => l) ⟨1, 0, 0, 0, 1, 0⟩ 1 0 [[((1:ℚ), (2:ℚ))]] = Except.ok [] ∧
    (to_lines (fun _ l => l) ⟨1, 0, 0, 0, 1, 0⟩ 3 0
      [[((1:ℚ), (2:ℚ)), (3, 4)]]).isOk = false := by
  have hmax : (max (1:ℤ) 3).toNat = 3 := by decide
  have h1 := (to_lines_degenerate_amended (fun _ l => l) ⟨1, 0, 0, 0, 1, 0⟩ 1 0
    [((1:ℚ), (2:ℚ))] []).1 (by norm_num)
  have h2 := (to_lines_degenerate_amended (fun _ l => l) ⟨1, 0, 0, 0, 1, 0⟩ 3 0
    [((1:ℚ), (2:ℚ)), (3, 4)] []).2.1 (by norm_num)
    (by rw [hmax]; simp [everyNth_cons, everyNth_nil])
  exact ⟨by rw [h1]; rfl, h2⟩

/-- C5: the morphological cleanup is exactly closing ∘ opening ∘ removal in
that fixed order, and a sub-step whose parameter is 0 is skipped: it is the
identity on the mask and the result does not depend on the corresponding
operation at all. -/
theorem morph_cleanup_order_and_skip {M : Type} (rem opn cls : ℤ → M → M)
    (min_size r_open r_close : ℤ) (m : M) :
    morph_cleanup rem opn cls min_size r_open r_close m =
      morph_closing cls r_close (morph_opening opn r_open (morph_remove rem min_size m)) ∧
    (min_size = 0 → morph_remove rem min_size m = m) ∧
    (r_open = 0 → morph_opening opn r_open m = m) ∧
    (r_close = 0 → morph_closing cls r_close m = m) ∧
    (min_size = 0 → ∀ rem' : ℤ → M → M,
      morph_cleanup rem' opn cls min_size r_open r_close m =
        morph_cleanup rem opn cls min_size r_open r_close m) ∧
    (r_open = 0 → ∀ opn' : ℤ → M → M,
      morph_cleanup rem opn' cls min_size r_open r_close m =
        morph_cleanup rem opn cls min_size r_open r_close m) ∧
    (r_close = 0 → ∀ cls' : ℤ → M → M,
      morph_cleanup rem opn cls' min_size r_open r_close m =
        morph_cleanup rem opn cls min_size r_open r_close m) := by
  refine ⟨rfl, ?_, ?_, ?_, ?_, ?_, ?_⟩
  · intro h; simp [morph_remove, h]
  · intro h; simp [morph_opening, h]
  · intro h; simp [morph_closing, h]
  · intro h rem'
    simp [morph_cleanup, morph_remove, h]
  · intro h opn'
    simp [morph_cleanup, morph_opening, h]
  · intro h cls'
    simp [morph_cleanup, morph_closing, h]

/-- C5 witness: with all three parameters 0 the cleanup leaves the mask
unchanged, whatever the three operations would do. -/
theorem morph_cleanup_order_and_skip_witness :
    morph_cleanup (fun _ n => n + 1) (fun _ n => n + 2) (fun _ n => n + 3)
      0 0 0 (5 : ℕ) = 5 := by
  have h := morph_cleanup_order_and_skip (fun _ n => n + 1) (fun _ n => n + 2)
    (fun _ n => n + 3) 0 0 0 (5 : ℕ)
  rw [h.1, h.2.1 rfl, h.2.2.1 rfl, h.2.2.2.1 rfl]

/-- C6 counterexample: a band holding the negative sample `-1` (maximum
`-1`, neither 0 nor above 1) is returned unchanged, so the output is not
contained in `[0, 1]` — the claim fails on bands with negative samples. -/
theorem norm_band_negative_counterexample :
    norm_band [(-1 : ℚ)] = [(-1 : ℚ)] ∧ ¬ (0 ≤ (-1 : ℚ)) := by
  constructor
  · rw [norm_band, if_neg (by norm_num [bandMax]), if_neg (by norm_num [bandMax])]
  · norm_num

/-- C6 (amended): on a band of nonnegative samples the normalizer returns
values in `[0, 1]`, choosing by the maximum sample: a maximum `≤ 1`
returns the band unchanged (in particular an all-zero band), a maximum in
`(1, 255]` divides every sample by 255, a larger maximum divides by the
observed maximum.  Bands with negative samples can leave `[0, 1]`. -/
theorem norm_band_amended (x : List ℚ) (hpos : ∀ v ∈ x, 0 ≤ v) :
    (∀ y ∈ norm_band x, 0 ≤ y ∧ y ≤ 1) ∧
    (bandMax x ≤ 1 → norm_band x = x) ∧
    (1 < bandMax x → bandMax x ≤ 255 → norm_band x = x.map (fun v => v / 255)) ∧
    (255 < bandMax x → norm_band x = x.map (fun v => v / bandMax x)) ∧
    ((∀ v ∈ x, v = 0) → norm_band x = x) := by
  have hle1 : bandMax x ≤ 1 → norm_band x = x := by
    intro hle
    by_cases h0 : bandMax x = 0
    · rw [norm_band, if_pos h0]
    · rw [norm_band, if_neg h0, if_neg (not_lt.mpr hle)]
  refine ⟨?_, hle1, ?_, ?_, ?_⟩
  · intro y hy
    simp only [norm_band] at hy
    by_cases h0 : bandMax x = 0
    · rw [if_pos h0] at hy
      refine ⟨hpos y hy, ?_⟩
      calc y ≤ bandMax x := mem_le_bandMax x y hy
        _ = 0 := h0
        _ ≤ 1 := by norm_num
    · rw [if_neg h0] at hy
      by_cases h1 : 1 < bandMax x
      · rw [if_pos h1] at hy
        obtain ⟨v, hvmem, rfl⟩ := List.mem_map.mp hy
        by_cases h255 : bandMax x ≤ 255
        · rw [if_pos h255]
          exact ⟨div_nonneg (hpos v hvmem) (by norm_num),
            (div_le_one (by norm_num)).mpr
              (le_trans (mem_le_bandMax x v hvmem) h255)⟩
        · rw [if_neg h255]
          have hbm : 0 < bandMax x := lt_trans zero_lt_one h1
          exact ⟨div_nonneg (hpos v hvmem) (le_of_lt hbm),
            (div_le_one hbm).mpr (mem_le_bandMax x v hvmem)⟩
      · rw [if_neg h1] at hy
        exact ⟨hpos y hy, le_trans (mem_le_bandMax x y hy) (not_lt.mp h1)⟩
  · intro h1 h255
    have h0 : bandMax x ≠ 0 := by
      intro hz; rw [hz] at h1; norm_num at h1
    rw [norm_band, if_neg h0, if_pos h1]
    simp [h255]
  · intro h255
    have h1 : 1 < bandMax x := lt_trans (by norm_num) h255
    have h0 : bandMax x ≠ 0 := by
      intro hz; rw [hz] at h1; norm_num at h1
    rw [norm_band, if_neg h0, if_pos h1]
    simp [not_le.mpr h255]
  · intro hz
    refine hle1 (le_trans (bandMax_le x 0 le_rfl ?_) (by norm_num))
    intro v hv
    exact le_of_eq (hz v hv)

/-- C6 witness: the amended statement on the already-normalized band
`[1/2]`, returned unchanged. -/
theorem norm_band_amended_witness :
    norm_band [(1/2 : ℚ)] = [(1/2 : ℚ)] := by
  have h := norm_band_amended [(1/2 : ℚ)]
    (by intro v hv; simp only [List.mem_singleton] at hv; rw [hv]; norm_num)
  exact h.2.1 (by norm_num [bandMax])

/-- C7: when tracing yields zero contours the pipeline completes normally:
it emits a valid feature collection with 0 features and reports the
parameter-tuning guidance. -/
theorem vectorize_tail_empty_contours (sfn : ℚ → List Pt → List Pt) (t : Affine)
    (step : ℤ) (simplify_tol : ℚ) :
    vectorize_tail sfn t step simplify_tol [] = Except.ok ⟨save_geojson [], true⟩ ∧
    (save_geojson []).features = [] ∧
    (save_geojson []).features.length = 0 :=
  ⟨rfl, rfl, rfl⟩

/-- Helper for C8: with tolerance 0 the conversion does not depend on the
simplification function. -/
theorem to_lines_tol_zero_fn_irrelevant (sfn gfn : ℚ → List Pt → List Pt) (t : Affine)
    (step : ℤ) :
    ∀ contours, to_lines sfn t step 0 contours = to_lines gfn t step 0 contours := by
  intro contours
  induction contours with
  | nil => rfl
  | cons arr rest ih =>
    simp only [to_lines, ih]
    have hs : ∀ fn line, simplify_stage fn (0:ℚ) line = line := by
      intro fn line; simp [simplify_stage]
    simp only [hs]

/-- C8: with tolerance 0 the simplification stage is skipped: every
polyline passes through with identical vertex count and positions, and the
whole conversion is independent of the simplification function. -/
theorem simplify_tol_zero_noop (sfn gfn : ℚ → List Pt → List Pt) (line : List Pt)
    (t : Affine) (step : ℤ) (contours : List (List Pt)) :
    simplify_stage sfn 0 line = line ∧
    to_lines sfn t step 0 contours = to_lines gfn t step 0 contours :=
  ⟨by simp [simplify_stage], to_lines_tol_zero_fn_irrelevant sfn gfn t step contours⟩

/-- C9: a stride below 1 is clamped to 1 and a negative simplify tolerance
is clamped to 0 before conversion, and the run proceeds with the clamped
values instead of rejecting the input. -/
theorem params_clamped (sfn : ℚ → List Pt → List Pt) (t : Affine) (step : ℤ)
    (simplify_tol : ℚ) (contours : List (List Pt))
    (hstep : step < 1) (htol : simplify_tol < 0) :
    vectorize_tail sfn t step simplify_tol contours =
      vectorize_tail sfn t 1 simplify_tol contours ∧
    vectorize_tail sfn t step simplify_tol contours =
      vectorize_tail sfn t step 0 contours := by
  have h1 : max (1:ℤ) step = max (1:ℤ) 1 := by
    rw [max_eq_left (le_of_lt hstep), max_self]
  have h2 : max (0:ℚ) simplify_tol = max (0:ℚ) 0 := by
    rw [max_eq_left (le_of_lt htol), max_self]
  constructor <;> simp only [vectorize_tail, h1, h2]

/-- C9 witness: stride 0 and tolerance -1 run exactly as stride 1 and
tolerance 0 do. -/
theorem params_clamped_witness :
    vectorize_tail (fun _ l => l) ⟨1, 0, 0, 0, 1, 0⟩ 0 (-1) [] =
      vectorize_tail (fun _ l => l) ⟨1, 0, 0, 0, 1, 0⟩ 1 (-1) [] ∧
    vectorize_tail (fun _ l => l) ⟨1, 0, 0, 0, 1, 0⟩ 0 (-1) [] =
      vectorize_tail (fun _ l => l) ⟨1, 0, 0, 0, 1, 0⟩ 0 0 [] := by
  exact params_clamped (fun _ l => l) ⟨1, 0, 0, 0, 1, 0⟩ 0 (-1) []
    (by norm_num) (by norm_num)

/-- C10: a negative `min_size`, opening radius, closing radius, or blur
sigma disables the corresponding step exactly as the documented value 0
does: the mask or image passes through unchanged and no operation is
invoked, with no error. -/
theorem negative_params_skip {M I : Type} (rem opn cls : ℤ → M → M)
    (gaussianFn : ℚ → I → I) (min_size r_open r_close : ℤ) (blur_sigma : ℚ)
    (m : M) (img : I)
    (h1 : min_size < 0) (h2 : r_open < 0) (h3 : r_close < 0) (h4 : blur_sigma < 0) :
    morph_remove rem min_size m = m ∧
    morph_opening opn r_open m = m ∧
    morph_closing cls r_close m = m ∧
    morph_cleanup rem opn cls min_size r_open r_close m = m ∧
    morph_cleanup rem opn cls min_size r_open r_close m =
      morph_cleanup rem opn cls 0 0 0 m ∧
    blur_stage gaussianFn blur_sigma img = img ∧
    blur_stage gaussianFn blur_sigma img = blur_stage gaussianFn 0 img := by
  have k1 : ¬(min_size ≠ 0 ∧ 0 < min_size) := by omega
  have k2 : ¬(r_open ≠ 0 ∧ 0 < r_open) := by omega
  have k3 : ¬(r_close ≠ 0 ∧ 0 < r_close) := by omega
  have k4 : ¬(blur_sigma ≠ 0 ∧ 0 < blur_sigma) := by
    rintro ⟨-, hpos⟩; linarith
  refine ⟨?_, ?_, ?_, ?_, ?_, ?_, ?_⟩ <;>
    simp [morph_remove, morph_opening, morph_closing, morph_cleanup, blur_stage,
      k1, k2, k3, k4]

/-- C10 witness: all four parameters negative leave a concrete mask and
image unchanged, whatever the operations would do. -/
theorem negative_params_skip_witness :
    morph_cleanup (fun _ n => n + 1) (fun _ n => n + 2) (fun _ n => n + 3)
      (-1) (-2) (-3) (5 : ℕ) = 5 ∧
    blur_stage (fun _ n => n + 7) (-1 : ℚ) (9 : ℕ) = 9 := by
  have h := negative_params_skip (fun _ n => n + 1) (fun _ n => n + 2)
    (fun _ n => n + 3) (fun _ n => n + 7) (-1) (-2) (-3) (-1 : ℚ) (5 : ℕ) (9 : ℕ)
    (by norm_num) (by norm_num) (by norm_num) (by norm_num)
  exact ⟨h.2.2.2.1, h.2.2.2.2.2.1⟩

end ExtractBlueContours
